import Mathlib

/-!
# Verification of the hae-gpt chunking and retrieval engine

Shallow embedding of the core modules of the repository:

* `src/vector_store.py` — `FaissVectorStore` (add, search, delete_by_source, load)
* `src/gpt_chunker.py`  — `GPTGuidedChunker` (classification, table detection,
  recursive split-offset composition, chunk construction)
* `src/retriever.py`    — `Retriever` (near-duplicate suppression, retrieve)

Python strings are modelled as `List Char` (a Python `str` is a sequence of
code points), floats as `ℚ` (only ordering and arithmetic on scores matter to
the claims), and the FAISS `IndexFlatIP` as the list of stored vectors with
exact inner-product search.  L2 normalisation (`faiss.normalize_L2`) divides
by a real square root; its numeric value is irrelevant to every claim proved
here, so it is passed as an explicit function parameter `norm` wherever the
source calls it.
-/

namespace HaeGpt

/-- `config.TOP_K` (src/config.py line 75). -/
def TOP_K : ℕ := 5

/-- `config.SIMILARITY_THRESHOLD` (src/config.py line 76). -/
def SIMILARITY_THRESHOLD : ℚ := 1 / 2

/-- `config.EMBEDDING_DIM` (src/config.py line 53). -/
def EMBEDDING_DIM : ℕ := 1024

/-- An embedding vector: a list of rationals (modelling Python floats). -/
abbrev Vec := List ℚ

/-- A LangChain `Document` as the vector store uses it: its `page_content`
and the `source` entry of its metadata (`None` when the key is absent). -/
structure Doc where
  page_content : List Char
  source : Option String
deriving Repr, DecidableEq

/-- The state of a `FaissVectorStore`: the FAISS `IndexFlatIP` is modelled by
the list of vectors it stores (`ntotal` = `vectors.length`), alongside the
parallel `documents` and `doc_ids` lists. -/
structure Store where
  dimension : ℕ
  vectors : List Vec
  documents : List Doc
  doc_ids : List ℕ
deriving Repr, DecidableEq

/-- Inner product of two vectors, as FAISS `IndexFlatIP` computes scores. -/
def dot (a b : Vec) : ℚ := (List.zipWith (· * ·) a b).sum

/-- Ordering used to model FAISS result ranking: higher score first, ties by
ascending index (a total order, so the sort below is well defined). -/
def hitLE (a b : ℚ × ℕ) : Prop := b.1 < a.1 ∨ (a.1 = b.1 ∧ a.2 ≤ b.2)

instance : DecidableRel hitLE := fun a b =>
  inferInstanceAs (Decidable (b.1 < a.1 ∨ (a.1 = b.1 ∧ a.2 ≤ b.2)))

instance : IsTotal (ℚ × ℕ) hitLE where
  total a b := by
    rcases lt_trichotomy a.1 b.1 with h | h | h
    · exact Or.inr (Or.inl h)
    · rcases le_total a.2 b.2 with h2 | h2
      · exact Or.inl (Or.inr ⟨h, h2⟩)
      · exact Or.inr (Or.inr ⟨h.symm, h2⟩)
    · exact Or.inl (Or.inl h)

instance : IsTrans (ℚ × ℕ) hitLE where
  trans a b c hab hbc := by
    rcases hab with h1 | ⟨h1, h1'⟩
    · rcases hbc with h2 | ⟨h2, _⟩
      · exact Or.inl (h2.trans h1)
      · exact Or.inl (h2 ▸ h1)
    · rcases hbc with h2 | ⟨h2, h2'⟩
      · exact Or.inl (h1 ▸ h2)
      · exact Or.inr ⟨h1.trans h2, h1'.trans h2'⟩

/-- `index.search(q, n)` on an `IndexFlatIP`: score every stored vector by
inner product with the query, rank by descending score, return the top `n`
as (score, index) pairs. -/
def faissSearch (vecs : List Vec) (q : Vec) (n : ℕ) : List (ℚ × ℕ) :=
  ((vecs.enum.map (fun p => (dot q p.2, p.1))).insertionSort hitLE).take n

/-- `FaissVectorStore.search` (src/vector_store.py lines 98–153).
`norm` stands for `faiss.normalize_L2`.  `k = 0` models a falsy `k`
argument (`None` or `0`): the source substitutes `config.TOP_K` via
`k = k or config.TOP_K`. -/
def search (norm : Vec → Vec) (st : Store) (query_embedding : Vec)
    (k : ℕ) (threshold : ℚ) (normalize : Bool := true) : List (Doc × ℚ) :=
  let k := if k = 0 then TOP_K else k
  if st.vectors.length = 0 then []
  else
    let q := if normalize then norm query_embedding else query_embedding
    let search_k := min (k * 2) st.vectors.length
    let hits := faissSearch st.vectors q search_k
    let results := hits.filterMap (fun p =>
      if p.2 < st.documents.length then
        if threshold ≤ p.1 then some (st.documents.getD p.2 ⟨[], none⟩, p.1)
        else none
      else none)
    results.take k

/-- The error raised by `add_documents` on a count mismatch (`ValueError` in
the source; the spec's `DimensionMismatch`). -/
inductive AddErr where
  | dimensionMismatch
deriving Repr, DecidableEq

/-- `FaissVectorStore.add_documents` (src/vector_store.py lines 59–96),
modelled as a state transformer returning the raised error (if any) together
with the post-state.  The `ValueError` is raised before any mutation, so the
error branch returns the input state unchanged. -/
def add_documents (norm : Vec → Vec) (st : Store) (documents : List Doc)
    (embeddings : List Vec) (normalize : Bool := true) :
    Option AddErr × Store :=
  if documents.length ≠ embeddings.length then (some .dimensionMismatch, st)
  else
    let embs := if normalize then embeddings.map norm else embeddings
    let start_id := st.documents.length
    (none,
      { st with
        vectors := st.vectors ++ embs
        documents := st.documents ++ documents
        doc_ids := st.doc_ids ++ (List.range documents.length).map (start_id + ·) })

/-- `FaissVectorStore.delete_by_source` (src/vector_store.py lines 155–180):
builds the filtered `keep` lists from `zip(self.documents, self.doc_ids)` and
returns `len(self.documents) - len(keep_docs)`; `self` is never written, so
the post-state equals the pre-state. -/
def delete_by_source (st : Store) (source : String) : ℕ × Store :=
  let keep := (st.documents.zip st.doc_ids).filter
    (fun p => decide (p.1.source ≠ some source))
  let deleted_count := st.documents.length - keep.length
  (deleted_count, st)

/-- The persisted FAISS index artifact (`{path}.index`). -/
structure IndexArtifact where
  d : ℕ
  vectors : List Vec
deriving Repr, DecidableEq

/-- The persisted metadata artifact (`{path}.metadata`, a pickle of
documents, doc_ids and dimension). -/
structure MetaArtifact where
  documents : List Doc
  doc_ids : List ℕ
  dimension : ℕ
deriving Repr, DecidableEq

/-- The `FileNotFoundError` cases of `FaissVectorStore.load`. -/
inductive LoadErr where
  | notFoundIndex
  | notFoundMetadata
deriving Repr, DecidableEq

/-- `FaissVectorStore.load` (src/vector_store.py lines 209–248).  The
filesystem is modelled by the two optional artifacts at the load path
(`none` = file missing).  The source checks the index file first, then the
metadata file, then reconstructs the store with no further validation. -/
def load (idxFile : Option IndexArtifact) (metaFile : Option MetaArtifact) :
    Except LoadErr Store :=
  match idxFile with
  | none => .error .notFoundIndex
  | some idx =>
    match metaFile with
    | none => .error .notFoundMetadata
    | some md =>
      .ok { dimension := md.dimension
            vectors := idx.vectors
            documents := md.documents
            doc_ids := md.doc_ids }

/-! ## Python string primitives (over `List Char`) -/

/-- One character of Python `str.lower()`: ASCII uppercase and the Latin-1
uppercase block (`À`–`Þ` except `×`, covering the Turkish `Ö`/`Ü` the
chunker's patterns involve) map down by 32. -/
def pyLowerChar (c : Char) : Char :=
  if 65 ≤ c.toNat ∧ c.toNat ≤ 90 then Char.ofNat (c.toNat + 32)
  else if 192 ≤ c.toNat ∧ c.toNat ≤ 222 ∧ c.toNat ≠ 215 then Char.ofNat (c.toNat + 32)
  else c

/-- Python whitespace for `str.strip()`, `str.split()` and the regex `\s`
(the ASCII cases: space, tab, newline, carriage return, vertical tab, form
feed). -/
def isPySpace (c : Char) : Bool :=
  c = ' ' ∨ c = '\t' ∨ c = '\n' ∨ c = '\r' ∨ c = Char.ofNat 11 ∨ c = Char.ofNat 12

/-- Python `str.strip()`: drop whitespace from both ends. -/
def pyStrip (s : List Char) : List Char :=
  ((s.dropWhile isPySpace).reverse.dropWhile isPySpace).reverse

/-- Worker for `pySplit`: `acc` holds the current word, reversed. -/
def pySplitAux : List Char → List Char → List (List Char)
  | [], acc => if acc = [] then [] else [acc.reverse]
  | c :: rest, acc =>
    if isPySpace c then
      if acc = [] then pySplitAux rest [] else acc.reverse :: pySplitAux rest []
    else pySplitAux rest (c :: acc)

/-- Python `str.split()` with no argument: split on whitespace runs,
producing no empty tokens. -/
def pySplit (s : List Char) : List (List Char) := pySplitAux s []

/-- Resolve one Python slice endpoint against a sequence of length `n`:
negative indices count from the end, and both directions clamp to `[0, n]`. -/
def sliceIdx (n : ℕ) (i : ℤ) : ℕ :=
  if i < 0 then (i + n).toNat else min i.toNat n

/-- Python `l[a:b]` for arbitrary integer endpoints. -/
def pySlice (l : List Char) (a b : ℤ) : List Char :=
  (l.take (sliceIdx l.length b)).drop (sliceIdx l.length a)

/-- Python substring test `marker in text`. -/
def containsMarker (marker text : List Char) : Bool :=
  (List.range (text.length + 1)).any (fun i => marker.isPrefixOf (text.drop i))

/-! ## GPTGuidedChunker (src/gpt_chunker.py) -/

/-- The section classification returned by `_classify_section`. -/
inductive SectionType where
  | abstract
  | references
  | appendix
  | content
deriving Repr, DecidableEq

/-- Match of `\s*C` (for a one-character class `C`) at the start of `t`:
true iff some position reachable by consuming whitespace carries a class
character.  This is exactly the backtracking semantics of the source's
regexes `\s*[:|\n]` and `\s*[:\d]`. -/
def matchWsClass (cls : Char → Bool) : List Char → Bool
  | [] => false
  | c :: rest => if cls c then true else if isPySpace c then matchWsClass cls rest else false

/-- Match of `^kw\s*C` against `t`. -/
def matchKw (kw : List Char) (cls : Char → Bool) (t : List Char) : Bool :=
  kw.isPrefixOf t && matchWsClass cls (t.drop kw.length)

/-- `GPTGuidedChunker._classify_section` (src/gpt_chunker.py lines 82–105):
on `text.lower().strip()[:200]`, try in order
`^(abstract|özet)\s*[:|\n]`, `^(references|bibliography|kaynaklar)`,
`^(appendix|ek)\s*[:\d]`; default `content`. -/
def classify_section (text : List Char) : SectionType :=
  let t := (pyStrip (text.map pyLowerChar)).take 200
  let absCls : Char → Bool := fun c => c = ':' ∨ c = '|' ∨ c = '\n'
  let appCls : Char → Bool := fun c => c = ':' ∨ c.isDigit
  if matchKw "abstract".data absCls t ∨ matchKw "özet".data absCls t then .abstract
  else if "references".data.isPrefixOf t ∨ "bibliography".data.isPrefixOf t ∨
      "kaynaklar".data.isPrefixOf t then .references
  else if matchKw "appendix".data appCls t ∨ matchKw "ek".data appCls t then .appendix
  else .content

/-- `GPTGuidedChunker._has_table_markers` (src/gpt_chunker.py lines 107–122). -/
def has_table_markers (text : List Char) : Bool :=
  containsMarker "[TABLE DATA]".data text ||
  containsMarker "| --- | --- |".data text ||
  containsMarker ['\t', '|', '\t'] text

/-- `MAX_CHARS` inside `_ask_gpt_for_splits`. -/
def MAX_CHARS : ℕ := 12000

/-- `GPTGuidedChunker._ask_gpt_for_splits` (src/gpt_chunker.py lines
124–170).  `base` models one successful advisory (GPT) call on a text of at
most `MAX_CHARS` characters (or the fixed-stride fallback when the call
errors); texts longer than `MAX_CHARS` are split recursively: offsets for
the head, plus offsets for the remainder shifted by `MAX_CHARS`. -/
def ask_gpt_for_splits (base : List Char → List ℤ) (text : List Char) : List ℤ :=
  if _h : MAX_CHARS < text.length then
    ask_gpt_for_splits base (text.take MAX_CHARS) ++
      (ask_gpt_for_splits base (text.drop MAX_CHARS)).map (· + (MAX_CHARS : ℤ))
  else base text
termination_by text.length
decreasing_by
  · simp only [List.length_take, MAX_CHARS] at *
    omega
  · simp only [List.length_drop, MAX_CHARS] at *
    omega

/-- The metadata dictionary attached to an emitted chunk: the caller's
metadata merged with the fields `chunk_text` adds on each branch. -/
structure ChunkMeta (α : Type) where
  base : α
  section_type : Option String
  has_table : Option Bool
  chunk_id : Option ℕ
  total_chunks : Option ℕ
deriving Repr, DecidableEq

/-- One element of `chunk_text`'s result list. -/
structure Chunk (α : Type) where
  content : List Char
  metadata : ChunkMeta α
  chunk_strategy : String
deriving Repr, DecidableEq

/-- `GPTGuidedChunker.chunk_text` (src/gpt_chunker.py lines 172–233).
`gpt` is the advisory oracle handed to `ask_gpt_for_splits`. -/
def chunk_text (gpt : List Char → List ℤ) (text : List Char) (metadata : α) :
    List (Chunk α) :=
  match classify_section text with
  | .abstract =>
    [⟨text, ⟨metadata, some "abstract", none, none, none⟩, "single_abstract"⟩]
  | .references => []
  | .appendix => []
  | .content =>
    if has_table_markers text then
      [⟨text, ⟨metadata, none, some true, none, none⟩, "single_table"⟩]
    else
      let split_indices := ask_gpt_for_splits gpt text
      (List.range split_indices.length).filterMap (fun i =>
        let start := split_indices.getD i 0
        let stop := if i + 1 < split_indices.length then split_indices.getD (i + 1) 0
          else (text.length : ℤ)
        let ct := pyStrip (pySlice text start stop)
        if ct = [] then none
        else some ⟨ct, ⟨metadata, none, none, some i, some split_indices.length⟩,
          "gpt_guided"⟩)

/-! ## Retriever (src/retriever.py) -/

/-- `Retriever._content_overlap` (src/retriever.py lines 181–214): Jaccard
similarity of the whitespace-tokenised word sets of the lowercased first 200
characters; 0 when either word set is empty. -/
def content_overlap (text1 text2 : List Char) : ℚ :=
  let words1 := (pySplit ((text1.take 200).map pyLowerChar)).toFinset
  let words2 := (pySplit ((text2.take 200).map pyLowerChar)).toFinset
  if words1 = ∅ ∨ words2 = ∅ then 0
  else
    let inter := (words1 ∩ words2).card
    let union := (words1 ∪ words2).card
    if 0 < union then (inter : ℚ) / union else 0

/-- The word set a hit is compared by: whitespace tokens of the lowercased
first 200 characters of its content. -/
def wset (c : List Char) : Finset (List Char) :=
  (pySplit ((c.take 200).map pyLowerChar)).toFinset

/-- The loop of `_deduplicate_results`: walk the hits, keep a candidate iff
its overlap with every already-kept content is at most the threshold, and
record kept contents in `seen`. -/
def dedupGo (thr : ℚ) : List (Doc × ℚ) → List (List Char) → List (Doc × ℚ)
  | [], _ => []
  | (d, s) :: rest, seen =>
    if seen.any (fun sn => decide (thr < content_overlap d.page_content sn)) then
      dedupGo thr rest seen
    else (d, s) :: dedupGo thr rest (seen ++ [d.page_content])

/-- `Retriever._deduplicate_results` (src/retriever.py lines 130–179). -/
def deduplicate_results (results : List (Doc × ℚ)) (thr : ℚ := 95 / 100) :
    List (Doc × ℚ) :=
  if results.length ≤ 1 then results else dedupGo thr results []

/-- `Retriever.retrieve` (src/retriever.py lines 71–128).  `embed` models
`EmbeddingService.embed_query`; `norm` as in `search`. -/
def retrieve (embed : List Char → Vec) (norm : Vec → Vec) (st : Store)
    (query : List Char) (k : ℕ) (threshold : ℚ) (deduplicate : Bool := true) :
    List (Doc × ℚ) :=
  let k := if k = 0 then TOP_K else k
  let qe := embed query
  let results := search norm st qe (if deduplicate then k * 2 else k) threshold true
  if deduplicate then (deduplicate_results results).take k else results

/-! ## Theorems -/

/-- C9: For every query vector, every k and every threshold, search on an
empty vector index (zero stored vectors) returns an empty list and does not
raise an error (the embedding is total: it always returns a list). -/
theorem search_empty_index (norm : Vec → Vec) (st : Store) (q : Vec) (k : ℕ)
    (t : ℚ) (b : Bool) (h : st.vectors = []) : search norm st q k t b = [] := by
  simp [search, h]

/-- Witness for `search_empty_index`: a freshly constructed store. -/
theorem search_empty_index_witness :
    (⟨EMBEDDING_DIM, [], [], []⟩ : Store).vectors = [] ∧
    search id ⟨EMBEDDING_DIM, [], [], []⟩ [1, 2] 5 (1 / 2) true = [] :=
  ⟨rfl, search_empty_index id ⟨EMBEDDING_DIM, [], [], []⟩ [1, 2] 5 (1 / 2) true rfl⟩

/-- C8 (amended): `load` fails fast with the `NotFound` error for whichever
artifact is missing (index checked first), and with both artifacts present
it always succeeds, reconstructing the store directly from them — it
performs no cross-validation of counts or dimensions. -/
theorem load_spec (idx : IndexArtifact) (md : MetaArtifact)
    (mo : Option MetaArtifact) :
    load none mo = .error .notFoundIndex ∧
    load (some idx) none = .error .notFoundMetadata ∧
    load (some idx) (some md) =
      .ok ⟨md.dimension, idx.vectors, md.documents, md.doc_ids⟩ :=
  ⟨rfl, rfl, rfl⟩

/-- C8 counterexample: artifacts whose counts (1 vector vs 0 documents) and
dimensions (7 vs 4) disagree load successfully — no cross-validation is
performed, contrary to the claim. -/
theorem load_no_cross_validation :
    (IndexArtifact.mk 7 [[1, 2]]).vectors.length ≠
      (MetaArtifact.mk [] [] 4).documents.length ∧
    (IndexArtifact.mk 7 [[1, 2]]).d ≠ (MetaArtifact.mk [] [] 4).dimension ∧
    load (some (IndexArtifact.mk 7 [[1, 2]])) (some (MetaArtifact.mk [] [] 4)) =
      .ok ⟨4, [[1, 2]], [], []⟩ :=
  ⟨by decide, by decide, rfl⟩

/-- C3: `add_documents` with mismatched counts fails with the dimension
mismatch error and returns the state unchanged (the error is raised before
any write); with matching counts it appends the documents, the (optionally
normalized) vectors and the next run of ids.  In both cases every existing
position is preserved (the old lists are a prefix of the new ones). -/
theorem add_documents_spec (norm : Vec → Vec) (st : Store) (docs : List Doc)
    (embs : List Vec) (b : Bool) :
    add_documents norm st docs embs b =
      (if docs.length = embs.length then
        (none,
          { st with
            vectors := st.vectors ++ (if b then embs.map norm else embs)
            documents := st.documents ++ docs
            doc_ids := st.doc_ids ++
              (List.range docs.length).map (st.documents.length + ·) })
      else (some .dimensionMismatch, st)) ∧
    (add_documents norm st docs embs b).2.vectors.take st.vectors.length =
      st.vectors ∧
    (add_documents norm st docs embs b).2.documents.take st.documents.length =
      st.documents ∧
    (add_documents norm st docs embs b).2.doc_ids.take st.doc_ids.length =
      st.doc_ids := by
  by_cases h : docs.length = embs.length <;>
    refine ⟨?_, ?_, ?_, ?_⟩ <;>
      simp [add_documents, h, List.take_left]

/-- Length of the `keep` list built by `delete_by_source` from the zipped
document/id lists, when the two lists have equal length. -/
theorem keep_length (docs : List Doc) (ids : List ℕ) (src : String)
    (h : ids.length = docs.length) :
    ((docs.zip ids).filter (fun p => decide (p.1.source ≠ some src))).length =
      docs.length - docs.countP (fun d => decide (d.source = some src)) := by
  induction docs generalizing ids with
  | nil => simp
  | cons d rest ih =>
    cases ids with
    | nil => simp at h
    | cons i is =>
      simp only [List.length_cons, Nat.succ.injEq] at h
      have hrec := ih is h
      have hle := List.countP_le_length
        (p := fun d : Doc => decide (d.source = some src)) (l := rest)
      by_cases hd : d.source = some src <;>
        simp [List.countP_cons, hd] at hrec hle ⊢ <;> omega

/-- C10 (amended): `delete_by_source` always leaves the entire store state
unchanged (it computes the filtered lists but never writes them back), and —
whenever `documents` and `doc_ids` have equal length, the invariant every
store operation maintains — its return value is the number of documents
whose metadata source equals the argument. -/
theorem delete_by_source_spec (st : Store) (src : String) :
    (delete_by_source st src).2 = st ∧
    (st.doc_ids.length = st.documents.length →
      (delete_by_source st src).1 =
        st.documents.countP (fun d => decide (d.source = some src))) := by
  refine ⟨rfl, fun h => ?_⟩
  have hle := List.countP_le_length
    (p := fun d : Doc => decide (d.source = some src)) (l := st.documents)
  simp only [delete_by_source, keep_length st.documents st.doc_ids src h]
  omega

/-- Witness for `delete_by_source_spec`: a two-document store with one
matching source; the call reports one deletion and changes nothing. -/
theorem delete_by_source_spec_witness :
    (delete_by_source
        ⟨4, [[1], [2]], [⟨"a".data, some "x"⟩, ⟨"b".data, some "y"⟩], [0, 1]⟩
        "x").2 =
      ⟨4, [[1], [2]], [⟨"a".data, some "x"⟩, ⟨"b".data, some "y"⟩], [0, 1]⟩ ∧
    (delete_by_source
        ⟨4, [[1], [2]], [⟨"a".data, some "x"⟩, ⟨"b".data, some "y"⟩], [0, 1]⟩
        "x").1 = 1 :=
  ⟨(delete_by_source_spec _ "x").1,
    ((delete_by_source_spec
      ⟨4, [[1], [2]], [⟨"a".data, some "x"⟩, ⟨"b".data, some "y"⟩], [0, 1]⟩
      "x").2 (by decide)).trans (by decide)⟩

/-- C10 counterexample: on a store state whose `doc_ids` list is shorter
than its `documents` list, the zip in `delete_by_source` truncates, so the
reported count (1) differs from the number of documents whose source
matches (0).  The claim's count statement fails for such states. -/
theorem delete_by_source_count_counterexample :
    (delete_by_source ⟨4, [[1]], [⟨"a".data, none⟩], []⟩ "x").1 = 1 ∧
    (Store.mk 4 [[1]] [⟨"a".data, none⟩] []).documents.countP
      (fun d => decide (d.source = some "x")) = 0 := by
  constructor <;> decide

/-- C4: Whenever `_classify_section` classifies a text as `abstract` (a
leading abstract-style header within the first 200 characters,
case-insensitively), `chunk_text` emits exactly one chunk whose content is
the entire input text, unmodified. -/
theorem chunk_text_abstract {α : Type} (gpt : List Char → List ℤ)
    (text : List Char) (md : α) (h : classify_section text = .abstract) :
    chunk_text gpt text md =
      [⟨text, ⟨md, some "abstract", none, none, none⟩, "single_abstract"⟩] := by
  simp [chunk_text, h]

/-- Witness for `chunk_text_abstract`. -/
theorem chunk_text_abstract_witness :
    classify_section "Abstract: Hello".data = .abstract ∧
    chunk_text (fun _ => [0]) "Abstract: Hello".data () =
      [⟨"Abstract: Hello".data, ⟨(), some "abstract", none, none, none⟩,
        "single_abstract"⟩] :=
  ⟨by decide, chunk_text_abstract (fun _ => [0]) "Abstract: Hello".data ()
    (by decide)⟩

/-- C5 counterexample: a text that both starts with a references header and
contains a table marker.  Classification runs first, so `chunk_text` emits
zero chunks, not the one chunk the claim requires for every text containing
a table marker. -/
theorem chunk_text_table_counterexample :
    has_table_markers "References\n| --- | --- |".data = true ∧
    chunk_text (fun _ => [0]) "References\n| --- | --- |".data () = [] := by
  constructor
  · decide
  · rfl

/-- C5 (amended): For every input text containing a recognizable table
marker that is not classified as references or appendix, `chunk_text` emits
exactly one chunk containing the entire text (via the table rule, or via the
abstract rule when an abstract header is also present). -/
theorem chunk_text_table {α : Type} (gpt : List Char → List ℤ)
    (text : List Char) (md : α) (ht : has_table_markers text = true)
    (h1 : classify_section text ≠ .references)
    (h2 : classify_section text ≠ .appendix) :
    (chunk_text gpt text md).map (fun c => c.content) = [text] := by
  cases hc : classify_section text with
  | abstract => simp [chunk_text, hc]
  | references => exact absurd hc h1
  | appendix => exact absurd hc h2
  | content => simp [chunk_text, hc, ht]

/-- Witness for `chunk_text_table`. -/
theorem chunk_text_table_witness :
    has_table_markers "x\t|\ty".data = true ∧
    classify_section "x\t|\ty".data ≠ .references ∧
    classify_section "x\t|\ty".data ≠ .appendix ∧
    (chunk_text (fun _ => [0]) "x\t|\ty".data ()).map (fun c => c.content) =
      ["x\t|\ty".data] :=
  ⟨by decide, by decide, by decide,
    chunk_text_table (fun _ => [0]) "x\t|\ty".data () (by decide) (by decide)
      (by decide)⟩

/-- C7: Every chunk emitted by `chunk_text` has non-empty content (empty and
whitespace-only spans are dropped before storage), and texts classified as
references or appendix never produce any chunk. -/
theorem chunk_text_invariants {α : Type} (gpt : List Char → List ℤ)
    (text : List Char) (md : α) :
    (chunk_text gpt text md).all (fun c => !c.content.isEmpty) = true ∧
    ((classify_section text = .references ∨ classify_section text = .appendix) →
      chunk_text gpt text md = []) := by
  constructor
  · rw [List.all_eq_true]
    intro c hc
    rcases hcl : classify_section text with _ | _ | _ | _
    · have hne : text ≠ [] := by
        intro h
        rw [h] at hcl
        exact absurd hcl (by decide)
      simp only [chunk_text, hcl, List.mem_singleton] at hc
      subst hc
      simpa using hne
    · simp [chunk_text, hcl] at hc
    · simp [chunk_text, hcl] at hc
    · by_cases ht : has_table_markers text
      · have hne : text ≠ [] := by
          intro h
          rw [h] at ht
          exact absurd ht (by decide)
        simp only [chunk_text, hcl, ht, if_true, List.mem_singleton] at hc
        subst hc
        simpa using hne
      · rw [Bool.not_eq_true] at ht
        simp only [chunk_text, hcl, ht, Bool.false_eq_true, if_false,
          List.mem_filterMap, List.mem_range] at hc
        obtain ⟨i, _, heq⟩ := hc
        split at heq <;> split at heq
        · exact absurd heq (by simp)
        · rename_i hcne
          rw [Option.some_inj] at heq
          subst heq
          simpa using hcne
        · exact absurd heq (by simp)
        · rename_i hcne
          rw [Option.some_inj] at heq
          subst heq
          simpa using hcne
  · rintro (h | h) <;> simp [chunk_text, h]

/-- Witness for `chunk_text_invariants`: a references page produces no
chunks (and the all-contents-nonempty check holds trivially of it). -/
theorem chunk_text_invariants_witness :
    (chunk_text (fun _ => [0]) "References\n[1] X".data ()).all
      (fun c => !c.content.isEmpty) = true ∧
    chunk_text (fun _ => [0]) "References\n[1] X".data () = [] :=
  ⟨(chunk_text_invariants (fun _ => [0]) "References\n[1] X".data ()).1,
    (chunk_text_invariants (fun _ => [0]) "References\n[1] X".data ()).2
      (Or.inl (by decide))⟩

/-- Strict form of the split-composition invariant, proved for every text
length by induction along the recursion of `ask_gpt_for_splits`: if every
base advisory call answers with strictly increasing offsets that are valid
indices of the text it was called on, the composed offsets are strictly
increasing valid indices of the full text. -/
theorem ask_gpt_for_splits_strict (base : List Char → List ℤ)
    (hbase : ∀ t : List Char, t.length ≤ MAX_CHARS →
      (base t).Chain' (· < ·) ∧ ∀ x ∈ base t, 0 ≤ x ∧ x < (t.length : ℤ))
    (text : List Char) :
    (ask_gpt_for_splits base text).Chain' (· < ·) ∧
      ∀ x ∈ ask_gpt_for_splits base text, 0 ≤ x ∧ x < (text.length : ℤ) := by
  suffices H : ∀ (n : ℕ) (text : List Char), text.length = n →
      (ask_gpt_for_splits base text).Chain' (· < ·) ∧
      ∀ x ∈ ask_gpt_for_splits base text, 0 ≤ x ∧ x < (text.length : ℤ) from
    H text.length text rfl
  intro n
  induction n using Nat.strong_induction_on with
  | _ n ih =>
  intro text hlen
  have hM : MAX_CHARS = 12000 := rfl
  by_cases h : MAX_CHARS < text.length
  · have htake : (text.take MAX_CHARS).length = MAX_CHARS := by
      simp [List.length_take]
      omega
    have hdrop : (text.drop MAX_CHARS).length = text.length - MAX_CHARS := by
      simp [List.length_drop]
    have ih1 := ih (text.take MAX_CHARS).length
      (by rw [htake]; omega) (text.take MAX_CHARS) rfl
    have ih2 := ih (text.drop MAX_CHARS).length
      (by rw [hdrop]; omega) (text.drop MAX_CHARS) rfl
    rw [htake] at ih1
    rw [hdrop] at ih2
    rw [ask_gpt_for_splits, dif_pos h]
    constructor
    · rw [List.chain'_append]
      refine ⟨ih1.1, (List.chain'_map _).2 (ih2.1.imp fun hab => by omega), ?_⟩
      intro x hx y hy
      have hxm : x ∈ ask_gpt_for_splits base (text.take MAX_CHARS) :=
        List.mem_of_mem_getLast? hx
      rw [List.head?_map] at hy
      obtain ⟨b, hb, rfl⟩ : ∃ b, b ∈ ask_gpt_for_splits base (text.drop MAX_CHARS) ∧
          b + (MAX_CHARS : ℤ) = y := by
        cases hh : (ask_gpt_for_splits base (text.drop MAX_CHARS)).head? with
        | none => rw [hh] at hy; exact absurd hy (by simp)
        | some b =>
          rw [hh] at hy
          simp only [Option.map_some', Option.mem_def, Option.some_inj] at hy
          exact ⟨b, List.mem_of_mem_head? hh, hy⟩
      have h1 := (ih1.2 x hxm).2
      have h2 := (ih2.2 b hb).1
      omega
    · intro x hx
      rw [List.mem_append] at hx
      rcases hx with hx | hx
      · have := ih1.2 x hx
        constructor
        · exact this.1
        · have : x < (MAX_CHARS : ℤ) := this.2
          omega
      · rw [List.mem_map] at hx
        obtain ⟨b, hb, rfl⟩ := hx
        have := ih2.2 b hb
        constructor
        · omega
        · have hlt : (b : ℤ) < ((text.length - MAX_CHARS : ℕ) : ℤ) := this.2
          omega
  · rw [ask_gpt_for_splits, dif_neg h]
    exact hbase text (by omega)

/-- C6: For every text longer than the advisory maximum length (12000
characters), if each base advisory call returns a strictly increasing list
of offsets, each a valid position of the text it was called on, then the
recursive head-plus-shifted-remainder composition returns a strictly
increasing list of offsets (none repeats or goes backward), none of which
exceeds the full text's length. -/
theorem ask_gpt_for_splits_spec (base : List Char → List ℤ)
    (hbase : ∀ t : List Char, t.length ≤ MAX_CHARS →
      (base t).Chain' (· < ·) ∧ ∀ x ∈ base t, 0 ≤ x ∧ x < (t.length : ℤ))
    (text : List Char) (_hlong : MAX_CHARS < text.length) :
    (ask_gpt_for_splits base text).Chain' (· < ·) ∧
      ∀ x ∈ ask_gpt_for_splits base text, 0 ≤ x ∧ x ≤ (text.length : ℤ) := by
  obtain ⟨h1, h2⟩ := ask_gpt_for_splits_strict base hbase text
  exact ⟨h1, fun x hx => ⟨(h2 x hx).1, le_of_lt (h2 x hx).2⟩⟩

/-- Witness for `ask_gpt_for_splits_spec`: a well-behaved base oracle (one
offset at 0 for non-empty input) on a 12001-character text. -/
theorem ask_gpt_for_splits_spec_witness :
    ((12000 : ℕ) < (List.replicate 12001 'a').length) ∧
    (ask_gpt_for_splits
        (fun t => if t.length = 0 then [] else [0])
        (List.replicate 12001 'a')).Chain' (· < ·) ∧
      ∀ x ∈ ask_gpt_for_splits
          (fun t => if t.length = 0 then [] else [0])
          (List.replicate 12001 'a'),
        0 ≤ x ∧ x ≤ ((List.replicate 12001 'a').length : ℤ) := by
  refine ⟨by rw [List.length_replicate]; omega,
    ask_gpt_for_splits_spec _ ?_ _
      (by simp only [List.length_replicate, MAX_CHARS]; omega)⟩
  intro t _
  by_cases h : t.length = 0
  · simp [h]
  · refine ⟨by simp [h], ?_⟩
    intro x hx
    simp only [h, if_false] at hx
    rw [List.mem_singleton] at hx
    subst hx
    constructor
    · exact le_refl 0
    · exact_mod_cast Nat.pos_of_ne_zero h

/-- C1 counterexample: with `k = 0` (a falsy `k`, which the source replaces
by `config.TOP_K = 5`), `search` on a one-vector store returns one result —
more than `k`.  The claim fails for `k = 0`. -/
theorem search_k_zero_counterexample :
    1 ≤ (Store.mk 1 [[1]] [⟨"doc".data, none⟩] [0]).vectors.length ∧
    ¬ (search id (Store.mk 1 [[1]] [⟨"doc".data, none⟩] [0])
        [1] 0 0 true).length ≤ 0 := by
  refine ⟨by decide, by with_unfolding_all decide⟩

/-- C1 (amended): For every store with at least one stored vector, every
query, every `k ≥ 1` and every threshold `t`, `search` returns at most `k`
results, no result with score below `t`, and the results sorted by
non-increasing score. -/
theorem search_spec (norm : Vec → Vec) (st : Store) (q : Vec) (k : ℕ) (t : ℚ)
    (hk : 1 ≤ k) (hne : 1 ≤ st.vectors.length) :
    (search norm st q k t true).length ≤ k ∧
    (∀ r ∈ search norm st q k t true, t ≤ r.2) ∧
    (search norm st q k t true).Sorted (fun a b => b.2 ≤ a.2) := by
  have hk0 : ¬ k = 0 := by omega
  have hne0 : ¬ st.vectors.length = 0 := by omega
  rw [search]
  simp only [hk0, if_false, hne0, if_true]
  refine ⟨List.length_take_le _ _, ?_, ?_⟩
  · intro r hr
    have hmem := List.mem_of_mem_take hr
    rw [List.mem_filterMap] at hmem
    obtain ⟨p, _, hf⟩ := hmem
    split_ifs at hf with h1 h2
    · rw [Option.some_inj] at hf
      rw [← hf]
      exact h2
  · have hsorted : (faissSearch st.vectors (norm q)
        (min (k * 2) st.vectors.length)).Sorted hitLE :=
      (List.sorted_insertionSort hitLE _).sublist (List.take_sublist _ _)
    have hfm := hsorted.filterMap
      (f := fun p : ℚ × ℕ =>
        if p.2 < st.documents.length then
          if t ≤ p.1 then some (st.documents.getD p.2 ⟨[], none⟩, p.1)
          else none
        else none)
      (S := fun a b : Doc × ℚ => b.2 ≤ a.2) ?_
    · exact hfm.sublist (List.take_sublist _ _)
    · intro a b hab x hx y hy
      rw [Option.mem_def] at hx hy
      dsimp only at hx hy
      split_ifs at hx hy with h1 h2 h3 h4
      rw [Option.some_inj] at hx hy
      rw [← hx, ← hy]
      rcases hab with h | ⟨h, _⟩
      · exact le_of_lt h
      · exact le_of_eq h.symm

/-- Witness for `search_spec`: `k = 1`, threshold `0`, one stored vector. -/
theorem search_spec_witness :
    (1 : ℕ) ≤ 1 ∧
    1 ≤ (Store.mk 1 [[1]] [⟨"doc".data, none⟩] [0]).vectors.length ∧
    ((search id (Store.mk 1 [[1]] [⟨"doc".data, none⟩] [0])
        [1] 1 0 true).length ≤ 1 ∧
      (∀ r ∈ search id (Store.mk 1 [[1]] [⟨"doc".data, none⟩] [0])
          [1] 1 0 true, (0 : ℚ) ≤ r.2) ∧
      (search id (Store.mk 1 [[1]] [⟨"doc".data, none⟩] [0])
          [1] 1 0 true).Sorted (fun a b => b.2 ≤ a.2)) :=
  ⟨le_refl 1, by decide,
    search_spec id (Store.mk 1 [[1]] [⟨"doc".data, none⟩] [0]) [1] 1 0
      (le_refl 1) (by decide)⟩

/-! ### Near-duplicate suppression (claim C2) -/

/-- The Jaccard value `content_overlap` computes, as a function of the two
word sets alone. -/
def jac (w1 w2 : Finset (List Char)) : ℚ :=
  if w1 = ∅ ∨ w2 = ∅ then 0
  else
    let inter := (w1 ∩ w2).card
    let union := (w1 ∪ w2).card
    if 0 < union then (inter : ℚ) / union else 0

/-- `content_overlap` depends only on the two word sets. -/
theorem content_overlap_eq_jac (c1 c2 : List Char) :
    content_overlap c1 c2 = jac (wset c1) (wset c2) := rfl

/-- Jaccard similarity is symmetric. -/
theorem jac_comm (w1 w2 : Finset (List Char)) : jac w1 w2 = jac w2 w1 := by
  simp only [jac, Finset.inter_comm, Finset.union_comm, or_comm]

/-- A non-empty word set has Jaccard similarity 1 with itself. -/
theorem jac_self (w : Finset (List Char)) (hW : w ≠ ∅) : jac w w = 1 := by
  have hcard : 0 < w.card := Finset.card_pos.2 (Finset.nonempty_iff_ne_empty.2 hW)
  simp only [jac, Finset.inter_self, Finset.union_self, hW, or_self, if_false,
    if_neg, hcard, if_true]
  rw [div_self]
  exact_mod_cast hcard.ne'

/-- Once some kept content overlaps the word set `W` beyond the threshold,
no hit with word set `W` ever survives the rest of the dedup walk (`seen`
only grows, so that kept content keeps discarding them). -/
theorem dedupGo_not_W (thr : ℚ) (W : Finset (List Char)) :
    ∀ (res : List (Doc × ℚ)) (seen : List (List Char)),
      (∃ sn ∈ seen, thr < jac (wset sn) W) →
      ∀ h ∈ dedupGo thr res seen, wset h.1.page_content ≠ W := by
  intro res
  induction res with
  | nil =>
    intro seen _ h hm
    simp [dedupGo] at hm
  | cons x rest ih =>
    intro seen hseen h hm
    obtain ⟨d, s⟩ := x
    rw [dedupGo] at hm
    split at hm
    · exact ih seen hseen h hm
    · rename_i hnodup
      rcases List.mem_cons.1 hm with rfl | hm2
      · intro hWd
        apply hnodup
        obtain ⟨sn, hsn, hlt⟩ := hseen
        rw [List.any_eq_true]
        refine ⟨sn, hsn, ?_⟩
        rw [decide_eq_true_iff, content_overlap_eq_jac, hWd, ← jac_comm]
        exact hlt
      · obtain ⟨sn, hsn, hlt⟩ := hseen
        exact ih (seen ++ [d.page_content])
          ⟨sn, List.mem_append_left _ hsn, hlt⟩ h hm2

/-- At most one hit per non-empty word set survives the dedup walk. -/
theorem dedupGo_countP_le_one (thr : ℚ) (hthr : thr < 1)
    (W : Finset (List Char)) (hW : W ≠ ∅) :
    ∀ (res : List (Doc × ℚ)) (seen : List (List Char)),
      (dedupGo thr res seen).countP
        (fun h => decide (wset h.1.page_content = W)) ≤ 1 := by
  intro res
  induction res with
  | nil =>
    intro seen
    simp [dedupGo]
  | cons x rest ih =>
    intro seen
    obtain ⟨d, s⟩ := x
    rw [dedupGo]
    split
    · exact ih seen
    · rw [List.countP_cons]
      by_cases hd : wset d.page_content = W
      · have hzero : (dedupGo thr rest (seen ++ [d.page_content])).countP
            (fun h => decide (wset h.1.page_content = W)) = 0 := by
          rw [List.countP_eq_zero]
          intro h hm
          have hne := dedupGo_not_W thr W rest (seen ++ [d.page_content])
            ⟨d.page_content, by simp,
              by rw [hd, jac_self W hW]; exact hthr⟩ h hm
          simpa using hne
        simp [hzero, hd]
      · simp only [hd, decide_eq_true_eq, if_neg, decide_False,
          Bool.false_eq_true, if_false, Nat.add_zero]
        exact ih (seen ++ [d.page_content])

/-- A hit with non-empty word set `W` that survives the dedup walk is the
first hit with word set `W` in the input (provided nothing already kept
overlaps `W` beyond the threshold). -/
theorem dedupGo_find_first (thr : ℚ) (hthr : thr < 1)
    (W : Finset (List Char)) (hW : W ≠ ∅) :
    ∀ (res : List (Doc × ℚ)) (seen : List (List Char)),
      (∀ sn ∈ seen, ¬ thr < jac (wset sn) W) →
      ∀ h ∈ dedupGo thr res seen, wset h.1.page_content = W →
        res.find? (fun h2 => decide (wset h2.1.page_content = W)) = some h := by
  intro res
  induction res with
  | nil =>
    intro seen _ h hm
    simp [dedupGo] at hm
  | cons x rest ih =>
    intro seen hseen h hm hWh
    obtain ⟨d, s⟩ := x
    rw [dedupGo] at hm
    by_cases hd : wset d.page_content = W
    · split at hm
      · rename_i hdup
        rw [List.any_eq_true] at hdup
        obtain ⟨sn, hsn, hlt⟩ := hdup
        rw [decide_eq_true_iff, content_overlap_eq_jac, hd, ← jac_comm] at hlt
        exact absurd hlt (hseen sn hsn)
      · rcases List.mem_cons.1 hm with rfl | hm2
        · rw [List.find?_cons_of_pos]
          simp [hd]
        · exact absurd hWh (dedupGo_not_W thr W rest (seen ++ [d.page_content])
            ⟨d.page_content, by simp,
              by rw [hd, jac_self W hW]; exact hthr⟩ h hm2)
    · have hfind : ((d, s) :: rest).find?
          (fun h2 => decide (wset h2.1.page_content = W)) =
          rest.find? (fun h2 => decide (wset h2.1.page_content = W)) :=
        List.find?_cons_of_neg _ (by simpa using hd)
      rw [hfind]
      split at hm
      · exact ih seen hseen h hm hWh
      · rcases List.mem_cons.1 hm with rfl | hm2
        · exact absurd hWh hd
        · refine ih (seen ++ [d.page_content]) ?_ h hm2 hWh
          intro sn hsn
          rcases List.mem_append.1 hsn with hs | hs
          · exact hseen sn hs
          · rw [List.mem_singleton] at hs
            subst hs
            intro hlt
            exact absurd hWh (dedupGo_not_W thr W rest (seen ++ [d.page_content])
              ⟨d.page_content, by simp, hlt⟩ h hm2)

/-- The early return for lists of length at most one agrees with the loop,
so `_deduplicate_results` is the loop started with an empty kept list. -/
theorem deduplicate_results_eq (res : List (Doc × ℚ)) (thr : ℚ) :
    deduplicate_results res thr = dedupGo thr res [] := by
  match res with
  | [] => rfl
  | [x] =>
    obtain ⟨d, s⟩ := x
    simp [deduplicate_results, dedupGo]
  | x :: y :: rest =>
    have hlen : ¬ (x :: y :: rest).length ≤ 1 := by
      simp only [List.length_cons]
      omega
    simp [deduplicate_results, hlen]

/-- In a list sorted by non-increasing score, the first hit satisfying a
predicate has the maximal score among all hits satisfying it. -/
theorem sorted_find_max (p : Doc × ℚ → Bool) :
    ∀ (res : List (Doc × ℚ)), res.Sorted (fun a b => b.2 ≤ a.2) →
      ∀ h : Doc × ℚ, res.find? p = some h →
        ∀ h2 ∈ res, p h2 = true → h2.2 ≤ h.2 := by
  intro res
  induction res with
  | nil =>
    intro _ h hf
    simp at hf
  | cons x rest ih =>
    intro hs h hf
    rw [List.sorted_cons] at hs
    by_cases hx : p x = true
    · rw [List.find?_cons_of_pos _ hx, Option.some_inj] at hf
      subst hf
      intro h2 hm _
      rcases List.mem_cons.1 hm with rfl | hm2
      · exact le_refl _
      · exact hs.1 h2 hm2
    · rw [List.find?_cons_of_neg _ (by simpa using hx)] at hf
      intro h2 hm hp
      rcases List.mem_cons.1 hm with rfl | hm2
      · exact absurd hp hx
      · exact ih hs.2 h hf h2 hm2 hp

/-- C2 (amended): For every hit list and every non-empty word set `W`:
at most one hit whose first-200-character word set is `W` survives
`_deduplicate_results`; any survivor with word set `W` is the first hit
with word set `W` in the list — hence, when the list is score-sorted, the
highest-scored one, so a lower-ranked hit with the same non-empty word set
is always discarded.  With `deduplicate=false`, `retrieve` returns the
search hit list unchanged, so both such hits survive. -/
theorem retrieve_dedup_spec (results : List (Doc × ℚ))
    (W : Finset (List Char)) (hW : W ≠ ∅) :
    (deduplicate_results results).countP
        (fun h => decide (wset h.1.page_content = W)) ≤ 1 ∧
    (∀ h ∈ deduplicate_results results, wset h.1.page_content = W →
        results.find? (fun h2 => decide (wset h2.1.page_content = W)) = some h) ∧
    (results.Sorted (fun a b => b.2 ≤ a.2) →
      ∀ h ∈ deduplicate_results results, wset h.1.page_content = W →
        ∀ h2 ∈ results, wset h2.1.page_content = W → h2.2 ≤ h.2) ∧
    (∀ (embed : List Char → Vec) (norm : Vec → Vec) (st : Store)
        (query : List Char) (k : ℕ) (t : ℚ),
      retrieve embed norm st query k t false =
        search norm st (embed query) (if k = 0 then TOP_K else k) t true) := by
  have hthr : (95 / 100 : ℚ) < 1 := by norm_num
  refine ⟨?_, ?_, ?_, ?_⟩
  · rw [deduplicate_results_eq]
    exact dedupGo_countP_le_one _ hthr W hW results []
  · intro h hm hWh
    rw [deduplicate_results_eq] at hm
    exact dedupGo_find_first _ hthr W hW results [] (by simp) h hm hWh
  · intro hsorted h hm hWh h2 hm2 hWh2
    rw [deduplicate_results_eq] at hm
    have hfind := dedupGo_find_first _ hthr W hW results [] (by simp) h hm hWh
    exact sorted_find_max _ results hsorted h hfind h2 hm2 (by simpa using hWh2)
  · intro embed norm st query k t
    rfl

/-- Witness for `retrieve_dedup_spec`: two hits with identical non-empty
word sets. -/
theorem retrieve_dedup_spec_witness :
    wset "foo bar".data ≠ ∅ ∧
    ((deduplicate_results
        [(⟨"foo bar".data, none⟩, 9 / 10), (⟨"bar  foo".data, none⟩, 4 / 5)]).countP
        (fun h => decide (wset h.1.page_content = wset "foo bar".data)) ≤ 1 ∧
    (∀ h ∈ deduplicate_results
        [(⟨"foo bar".data, none⟩, 9 / 10), (⟨"bar  foo".data, none⟩, 4 / 5)],
        wset h.1.page_content = wset "foo bar".data →
        List.find?
          (fun h2 => decide (wset h2.1.page_content = wset "foo bar".data))
          [(⟨"foo bar".data, none⟩, 9 / 10), (⟨"bar  foo".data, none⟩, 4 / 5)] =
          some h) ∧
    (List.Sorted (fun a b => b.2 ≤ a.2)
        [((⟨"foo bar".data, none⟩ : Doc), (9 / 10 : ℚ)), (⟨"bar  foo".data, none⟩, 4 / 5)] →
      ∀ h ∈ deduplicate_results
          [(⟨"foo bar".data, none⟩, 9 / 10), (⟨"bar  foo".data, none⟩, 4 / 5)],
        wset h.1.page_content = wset "foo bar".data →
        ∀ h2 ∈ [((⟨"foo bar".data, none⟩ : Doc), (9 / 10 : ℚ)),
            (⟨"bar  foo".data, none⟩, 4 / 5)],
          wset h2.1.page_content = wset "foo bar".data → h2.2 ≤ h.2) ∧
    (∀ (embed : List Char → Vec) (norm : Vec → Vec) (st : Store)
        (query : List Char) (k : ℕ) (t : ℚ),
      retrieve embed norm st query k t false =
        search norm st (embed query) (if k = 0 then TOP_K else k) t true)) :=
  ⟨by decide,
    retrieve_dedup_spec
      [(⟨"foo bar".data, none⟩, 9 / 10), (⟨"bar  foo".data, none⟩, 4 / 5)]
      (wset "foo bar".data) (by decide)⟩

/-- C2 counterexample: two hits whose first-200-character word sets are
identical (both empty: whitespace-only contents).  `_content_overlap`
special-cases empty word sets to 0, so `retrieve` with `deduplicate=true`
keeps both — the lower-ranked one is not discarded, contrary to the claim. -/
theorem retrieve_dedup_counterexample :
    wset "  ".data = wset " ".data ∧
    retrieve (fun _ => [1]) id
        (Store.mk 1 [[2], [1]] [⟨"  ".data, none⟩, ⟨" ".data, none⟩] [0, 1])
        "q".data 2 0 true =
      [(⟨"  ".data, none⟩, 2), (⟨" ".data, none⟩, 1)] := by
  constructor
  · decide
  · with_unfolding_all decide

end HaeGpt
